import Mathlib

/-!
# Verification of the `cfl` file-aggregation engine

Shallow embedding of `src/processor.rs` (and the pattern handling of
`src/lib.rs`).  Filesystem paths are modelled as lists of slash-free
components; the filesystem itself (existence test, ignore-aware walker,
canonicalization, file reading) is an explicit parameter `FS`, since those
are external collaborators of the engine.  Machine `usize` values are
modelled as `Nat` (no overflow is relevant to any claim).  Fallible Rust
operations returning `io::Result` are modelled with `Except String`.
-/

namespace Cfl

/-! ## Glob patterns

Model of the external `glob` crate's `Pattern`, restricted to the pattern
forms exercised here: literal characters and the wildcards `*` and `?`
(no character classes).  `Pattern::new` never fails on this fragment, so
compilation is modelled as total.  `*` matches any (possibly empty)
character sequence and `?` matches exactly one character; matching is
case-sensitive, as in the crate's default `MatchOptions`. -/

def globMatch : List Char → List Char → Bool
  | [], cs => cs.isEmpty
  | '*' :: ps, cs => (List.range (cs.length + 1)).any (fun i => globMatch ps (cs.drop i))
  | '?' :: ps, cs =>
    match cs with
    | [] => false
    | _ :: cs' => globMatch ps cs'
  | p :: ps, cs =>
    match cs with
    | [] => false
    | c :: cs' => p == c && globMatch ps cs'

/-- A compiled glob pattern (the `glob::Pattern` the processor stores). -/
structure Pattern where
  source : String
deriving DecidableEq, Repr

/-- `glob::Pattern::new`, total on the modelled pattern fragment. -/
def Pattern.new (s : String) : Pattern := ⟨s⟩

/-- `glob::Pattern::matches`, applied to a bare file name. -/
def Pattern.matches (p : Pattern) (name : String) : Bool :=
  globMatch p.source.toList name.toList

/-! ## Data model (`processor.rs`) -/

/-- `FileInfo` from `processor.rs`: metadata of one processed file. -/
structure FileInfo where
  path : String
  size : Nat
  tokens : Nat
deriving DecidableEq, Repr

/-- A filesystem path, as its list of slash-free components (absolute,
from the filesystem root). -/
abbrev FsPath := List String

/-- Display form of an absolute path (`Path::display`). -/
def pathStr (p : FsPath) : String := "/" ++ String.intercalate "/" p

/-- `CflError` from `error.rs`.  `io` carries the underlying message. -/
inductive CflError where
  | io : String → CflError
  | pattern : String → CflError
  | clipboard : String → CflError
  | pathNotFound : String → CflError
deriving DecidableEq, Repr

/-- The kind reported by `DirEntry::file_type` (file, directory, or
something else such as a symlink). -/
inductive FType where
  | file
  | dir
  | other
deriving DecidableEq, Repr

/-- One entry yielded by the ignore-aware walker: its absolute path and
its `file_type()` (`none` models a failed `file_type` query). -/
structure WalkEntry where
  path : FsPath
  ftype : Option FType
deriving DecidableEq, Repr

/-- The external filesystem: existence test, ignore-aware walk (a finite
list of entry results, `Except.error` being a per-entry walk error),
symlink-resolving canonicalization, and text file reading. -/
structure FS where
  pathExists : FsPath → Bool
  walk : FsPath → List (Except String WalkEntry)
  canonicalize : FsPath → Except String FsPath
  readToString : FsPath → Except String String

/-- `FileProcessor` state from `processor.rs`.  The `HashSet<PathBuf>` of
canonical paths is modelled as a list (inserted only after a membership
test, so it stays duplicate-free). -/
structure FileProcessor where
  include_patterns : List Pattern
  exclude_patterns : List Pattern
  processed_paths : List FsPath
  target_files : List FileInfo
  result : String
  current_dir : FsPath
deriving DecidableEq, Repr

/-- Pattern compilation in `FileProcessor::new`: a present string is split
on `','` (splitting an empty string yields one empty piece, as in Rust)
and each piece compiled; an absent string gives the empty set. -/
def compilePatterns : Option String → List Pattern
  | some patterns => (patterns.toList.splitOn ',').map (fun cs => Pattern.new cs.asString)
  | none => []

/-- `FileProcessor::new` (compile failures cannot occur on the modelled
pattern fragment, so the `Result` is modelled as always `Ok`). -/
def FileProcessor.new (include_ exclude : Option String) (current_dir : FsPath) :
    FileProcessor where
  include_patterns := compilePatterns include_
  exclude_patterns := compilePatterns exclude
  processed_paths := []
  target_files := []
  result := ""
  current_dir := current_dir

/-! ## Token estimation (`FileProcessor::estimate_tokens`) -/

/-- Rust `char::is_whitespace`: the Unicode `White_Space` property. -/
def isUnicodeWhitespace (c : Char) : Bool :=
  [0x09, 0x0A, 0x0B, 0x0C, 0x0D, 0x20, 0x85, 0xA0, 0x1680,
   0x2000, 0x2001, 0x2002, 0x2003, 0x2004, 0x2005, 0x2006, 0x2007,
   0x2008, 0x2009, 0x200A, 0x2028, 0x2029, 0x202F, 0x205F, 0x3000].contains c.val.toNat

/-- Rust `char::is_ascii_punctuation`. -/
def isAsciiPunct (c : Char) : Bool :=
  (0x21 ≤ c.val.toNat && c.val.toNat ≤ 0x2F) ||
  (0x3A ≤ c.val.toNat && c.val.toNat ≤ 0x40) ||
  (0x5B ≤ c.val.toNat && c.val.toNat ≤ 0x60) ||
  (0x7B ≤ c.val.toNat && c.val.toNat ≤ 0x7E)

/-- The bracket characters matched by the first `matches!` arm. -/
def isBracketChar (c : Char) : Bool :=
  c == '(' || c == ')' || c == '[' || c == ']' ||
  c.val.toNat == 0x7B || c.val.toNat == 0x7D

/-- The operator characters matched by the second `matches!` arm. -/
def isOpChar (c : Char) : Bool :=
  c == '+' || c == '-' || c == '*' || c == '/' || c == '=' || c == '<' ||
  c == '>' || c == '&' || c == '|' || c == '!' || c == '@' ||
  c == '#' || c == '$' || c == '%' || c == '^'

/-- The split predicate of `estimate_tokens`. -/
def isTokenDelim (c : Char) : Bool :=
  isUnicodeWhitespace c || isAsciiPunct c || isBracketChar c || isOpChar c

/-- `FileProcessor::estimate_tokens`: split on the delimiter predicate and
count the non-empty pieces (`content.split(..).filter(..).count()`). -/
def estimate_tokens (content : String) : Nat :=
  ((content.toList.splitOnP isTokenDelim).filter (fun s => !s.isEmpty)).length

/-! ## Processing (`process_file`, `process_path`) -/

/-- Relative-path display used for a processed file: strip the processor's
root, falling back to the path as given (`strip_prefix(..).unwrap_or(path)`
followed by `to_string_lossy`). -/
def relDisplay (cur p : FsPath) : String :=
  if cur.isPrefixOf p then String.intercalate "/" (p.drop cur.length)
  else pathStr p

/-- The formatted fenced block appended for one file. -/
def block (relative_path content : String) : String :=
  "```" ++ relative_path ++ "\n" ++ content ++ "\n```\n"

/-- `FileProcessor::process_file`.  Returns the updated processor state
(the Rust function mutates `&mut self`) together with the error, if any,
of its `Result`. -/
def process_file (fs : FS) (self : FileProcessor) (path : FsPath) :
    FileProcessor × Option CflError :=
  match fs.canonicalize path with
  | .error e => (self, some (CflError.io e))
  | .ok canonical_path =>
    if canonical_path ∈ self.processed_paths then
      (self, none)
    else
      let file_name := (path.getLast?).getD ""
      if self.exclude_patterns.any (fun p => p.matches file_name) then
        (self, none)
      else if !self.include_patterns.isEmpty
          && !self.include_patterns.any (fun p => p.matches file_name) then
        (self, none)
      else
        match fs.readToString path with
        | .error e => (self, some (CflError.io e))
        | .ok content =>
          let relative_path := relDisplay self.current_dir path
          ({ self with
              target_files := self.target_files ++
                [⟨relative_path, content.utf8ByteSize, estimate_tokens content⟩],
              result := self.result ++ block relative_path content,
              processed_paths := self.processed_paths ++ [canonical_path] },
            none)

/-- Does the walker entry report a plain file
(`entry.file_type().map_or(false, |ft| ft.is_file())`)? -/
def entryIsFile (e : WalkEntry) : Bool :=
  (e.ftype.map (fun ft => ft == FType.file)).getD false

/-- The walker loop of `process_path`: per-entry walk errors are printed
and skipped, file entries are processed, and a `process_file` error stops
the loop and is returned (Rust `?`), keeping the state reached so far. -/
def walkFold (fs : FS) (self : FileProcessor) :
    List (Except String WalkEntry) → FileProcessor × Option CflError
  | [] => (self, none)
  | .error _ :: rest => walkFold fs self rest
  | .ok entry :: rest =>
    if entryIsFile entry then
      match process_file fs self entry.path with
      | (self', none) => walkFold fs self' rest
      | (self', some e) => (self', some e)
    else walkFold fs self rest

/-- `FileProcessor::process_path`. -/
def process_path (fs : FS) (self : FileProcessor) (path : FsPath) :
    FileProcessor × Option CflError :=
  if fs.pathExists path then walkFold fs self (fs.walk path)
  else (self, some (CflError.pathNotFound (pathStr path)))

/-! ## Accessors -/

def FileProcessor.get_target_files (self : FileProcessor) : List FileInfo :=
  self.target_files

def FileProcessor.get_result (self : FileProcessor) : String :=
  self.result

/-- `get_total_size`: the byte length of the result buffer. -/
def FileProcessor.get_total_size (self : FileProcessor) : Nat :=
  self.result.utf8ByteSize

def FileProcessor.get_total_tokens (self : FileProcessor) : Nat :=
  (self.target_files.map (fun f => f.tokens)).sum

/-! ## The filter policy, as the spec states it -/

/-- The bare file name a candidate is matched on
(`path.file_name().and_then(|n| n.to_str()).unwrap_or("")`). -/
def nameOf (path : FsPath) : String := (path.getLast?).getD ""

/-- Spec section 4.3, stated as written: reject on any exclude match;
else reject when the include set is non-empty and nothing matches;
else accept. -/
def specFilterAccepts (excl incl : List Pattern) (name : String) : Bool :=
  if excl.any (fun p => p.matches name) then false
  else if !incl.isEmpty && !incl.any (fun p => p.matches name) then false
  else true

/-- The state produced when `process_file` accepts a file and reads it. -/
def acceptState (self : FileProcessor) (path canonical_path : FsPath)
    (content : String) : FileProcessor :=
  { self with
      target_files := self.target_files ++
        [⟨relDisplay self.current_dir path, content.utf8ByteSize, estimate_tokens content⟩],
      result := self.result ++ block (relDisplay self.current_dir path) content,
      processed_paths := self.processed_paths ++ [canonical_path] }

/-! ## Scenario lemmas for `process_file` -/

theorem process_file_canon_error {fs : FS} {path : FsPath} {e : String}
    (self : FileProcessor) (h : fs.canonicalize path = .error e) :
    process_file fs self path = (self, some (CflError.io e)) := by
  unfold process_file
  rw [h]

theorem process_file_dup {fs : FS} {path : FsPath} {c : FsPath}
    (self : FileProcessor) (hc : fs.canonicalize path = .ok c)
    (hmem : c ∈ self.processed_paths) :
    process_file fs self path = (self, none) := by
  unfold process_file
  rw [hc]
  simp [hmem]

theorem process_file_rejected {fs : FS} {path : FsPath} {c : FsPath}
    (self : FileProcessor) (hc : fs.canonicalize path = .ok c)
    (hmem : c ∉ self.processed_paths)
    (hrej : specFilterAccepts self.exclude_patterns self.include_patterns
      (nameOf path) = false) :
    process_file fs self path = (self, none) := by
  unfold process_file
  rw [hc]
  simp only [if_neg hmem]
  unfold specFilterAccepts at hrej
  split at hrej
  · simp_all [nameOf]
  · split at hrej
    · next h1 h2 =>
      simp only [nameOf] at h1 h2
      simp [h1, h2]
    · simp at hrej

theorem process_file_read_error {fs : FS} {path : FsPath} {c : FsPath} {e : String}
    (self : FileProcessor) (hc : fs.canonicalize path = .ok c)
    (hmem : c ∉ self.processed_paths)
    (hacc : specFilterAccepts self.exclude_patterns self.include_patterns
      (nameOf path) = true)
    (hread : fs.readToString path = .error e) :
    process_file fs self path = (self, some (CflError.io e)) := by
  unfold process_file
  rw [hc]
  simp only [if_neg hmem]
  unfold specFilterAccepts at hacc
  split at hacc
  · simp at hacc
  · next h1 =>
    simp only [nameOf] at h1
    split at hacc
    · simp at hacc
    · next h2 =>
      simp only [nameOf] at h2
      simp only [h1, if_false, Bool.not_eq_true] at *
      simp [h1, h2, hread]

theorem process_file_accept {fs : FS} {path : FsPath} {c : FsPath} {content : String}
    (self : FileProcessor) (hc : fs.canonicalize path = .ok c)
    (hmem : c ∉ self.processed_paths)
    (hacc : specFilterAccepts self.exclude_patterns self.include_patterns
      (nameOf path) = true)
    (hread : fs.readToString path = .ok content) :
    process_file fs self path = (acceptState self path c content, none) := by
  unfold process_file
  rw [hc]
  simp only [if_neg hmem]
  unfold specFilterAccepts at hacc
  split at hacc
  · simp at hacc
  · next h1 =>
    simp only [nameOf] at h1
    split at hacc
    · simp at hacc
    · next h2 =>
      simp only [nameOf] at h2
      simp [h1, h2, hread, acceptState, block]

/-- Exhaustive characterization: every `process_file` call is one of the
five scenarios. -/
theorem process_file_cases (fs : FS) (self : FileProcessor) (path : FsPath) :
    (∃ e, fs.canonicalize path = .error e ∧
        process_file fs self path = (self, some (CflError.io e))) ∨
    (∃ c, fs.canonicalize path = .ok c ∧ c ∈ self.processed_paths ∧
        process_file fs self path = (self, none)) ∨
    (∃ c, fs.canonicalize path = .ok c ∧ c ∉ self.processed_paths ∧
        specFilterAccepts self.exclude_patterns self.include_patterns (nameOf path) = false ∧
        process_file fs self path = (self, none)) ∨
    (∃ c e, fs.canonicalize path = .ok c ∧ c ∉ self.processed_paths ∧
        specFilterAccepts self.exclude_patterns self.include_patterns (nameOf path) = true ∧
        fs.readToString path = .error e ∧
        process_file fs self path = (self, some (CflError.io e))) ∨
    (∃ c content, fs.canonicalize path = .ok c ∧ c ∉ self.processed_paths ∧
        specFilterAccepts self.exclude_patterns self.include_patterns (nameOf path) = true ∧
        fs.readToString path = .ok content ∧
        process_file fs self path = (acceptState self path c content, none)) := by
  cases hc : fs.canonicalize path with
  | error e =>
    exact Or.inl ⟨e, rfl, process_file_canon_error self hc⟩
  | ok c =>
    by_cases hmem : c ∈ self.processed_paths
    · exact Or.inr (Or.inl ⟨c, rfl, hmem, process_file_dup self hc hmem⟩)
    · cases hacc : specFilterAccepts self.exclude_patterns self.include_patterns (nameOf path) with
      | false =>
        exact Or.inr (Or.inr (Or.inl ⟨c, rfl, hmem, rfl,
          process_file_rejected self hc hmem hacc⟩))
      | true =>
        cases hread : fs.readToString path with
        | error e =>
          exact Or.inr (Or.inr (Or.inr (Or.inl ⟨c, e, rfl, hmem, rfl, rfl,
            process_file_read_error self hc hmem hacc hread⟩)))
        | ok content =>
          exact Or.inr (Or.inr (Or.inr (Or.inr ⟨c, content, rfl, hmem, rfl, rfl,
            process_file_accept self hc hmem hacc hread⟩)))

/-! ## Structural lemmas about `process_file` and `walkFold` -/

theorem process_file_config (fs : FS) (self : FileProcessor) (path : FsPath) :
    (process_file fs self path).1.include_patterns = self.include_patterns ∧
    (process_file fs self path).1.exclude_patterns = self.exclude_patterns ∧
    (process_file fs self path).1.current_dir = self.current_dir := by
  rcases process_file_cases fs self path with
    ⟨e, _, h⟩ | ⟨c, _, _, h⟩ | ⟨c, _, _, _, h⟩ | ⟨c, e, _, _, _, _, h⟩ |
    ⟨c, content, _, _, _, _, h⟩ <;> rw [h] <;> simp [acceptState]

theorem process_file_mono (fs : FS) (self : FileProcessor) (path : FsPath) :
    self.processed_paths <+: (process_file fs self path).1.processed_paths ∧
    self.target_files <+: (process_file fs self path).1.target_files := by
  rcases process_file_cases fs self path with
    ⟨e, _, h⟩ | ⟨c, _, _, h⟩ | ⟨c, _, _, _, h⟩ | ⟨c, e, _, _, _, _, h⟩ |
    ⟨c, content, _, _, _, _, h⟩ <;> rw [h] <;>
    simp [acceptState, List.prefix_append]

theorem process_file_error_io (fs : FS) (self : FileProcessor) (path : FsPath) :
    (process_file fs self path).2 = none ∨
    ∃ e, (process_file fs self path).2 = some (CflError.io e) := by
  rcases process_file_cases fs self path with
    ⟨e, _, h⟩ | ⟨c, _, _, h⟩ | ⟨c, _, _, _, h⟩ | ⟨c, e, _, _, _, _, h⟩ |
    ⟨c, content, _, _, _, _, h⟩ <;> rw [h] <;> simp

theorem walkFold_nil (fs : FS) (self : FileProcessor) :
    walkFold fs self [] = (self, none) := rfl

theorem walkFold_error (fs : FS) (self : FileProcessor) (e : String)
    (rest : List (Except String WalkEntry)) :
    walkFold fs self (.error e :: rest) = walkFold fs self rest := rfl

theorem walkFold_ok_file (fs : FS) (self : FileProcessor) (entry : WalkEntry)
    (hf : entryIsFile entry = true) (rest : List (Except String WalkEntry)) :
    walkFold fs self (.ok entry :: rest) =
      match process_file fs self entry.path with
      | (self', none) => walkFold fs self' rest
      | (self', some e) => (self', some e) := by
  simp [walkFold, hf]

theorem walkFold_ok_nonfile (fs : FS) (self : FileProcessor) (entry : WalkEntry)
    (hf : entryIsFile entry = false) (rest : List (Except String WalkEntry)) :
    walkFold fs self (.ok entry :: rest) = walkFold fs self rest := by
  simp [walkFold, hf]

theorem walkFold_append (fs : FS) (self : FileProcessor)
    (l1 l2 : List (Except String WalkEntry)) :
    walkFold fs self (l1 ++ l2) =
      match walkFold fs self l1 with
      | (s, none) => walkFold fs s l2
      | (s, some e) => (s, some e) := by
  induction l1 generalizing self with
  | nil => simp [walkFold]
  | cons hd tl ih =>
    cases hd with
    | error e => simpa [walkFold] using ih self
    | ok entry =>
      by_cases hf : entryIsFile entry
      · rw [List.cons_append, walkFold_ok_file fs self entry hf,
          walkFold_ok_file fs self entry hf]
        cases hpf : process_file fs self entry.path with
        | mk s' err =>
          cases err with
          | none => simpa using ih s'
          | some e => simp
      · rw [List.cons_append, walkFold_ok_nonfile fs self entry (by simpa using hf),
          walkFold_ok_nonfile fs self entry (by simpa using hf)]
        exact ih self

theorem walkFold_config (fs : FS) (self : FileProcessor)
    (l : List (Except String WalkEntry)) :
    (walkFold fs self l).1.include_patterns = self.include_patterns ∧
    (walkFold fs self l).1.exclude_patterns = self.exclude_patterns ∧
    (walkFold fs self l).1.current_dir = self.current_dir := by
  induction l generalizing self with
  | nil => simp [walkFold]
  | cons hd tl ih =>
    cases hd with
    | error e => simpa [walkFold] using ih self
    | ok entry =>
      by_cases hf : entryIsFile entry
      · rw [walkFold_ok_file fs self entry hf]
        cases hpf : process_file fs self entry.path with
        | mk s' err =>
          have hcfg := process_file_config fs self entry.path
          rw [hpf] at hcfg
          cases err with
          | none =>
            have h2 := ih s'
            simp only []
            exact ⟨h2.1.trans hcfg.1, h2.2.1.trans hcfg.2.1, h2.2.2.trans hcfg.2.2⟩
          | some e => simpa using hcfg
      · rw [walkFold_ok_nonfile fs self entry (by simpa using hf)]
        exact ih self

theorem walkFold_mono (fs : FS) (self : FileProcessor)
    (l : List (Except String WalkEntry)) :
    self.processed_paths <+: (walkFold fs self l).1.processed_paths ∧
    self.target_files <+: (walkFold fs self l).1.target_files := by
  induction l generalizing self with
  | nil => simp [walkFold]
  | cons hd tl ih =>
    cases hd with
    | error e => simpa [walkFold] using ih self
    | ok entry =>
      by_cases hf : entryIsFile entry
      · rw [walkFold_ok_file fs self entry hf]
        cases hpf : process_file fs self entry.path with
        | mk s' err =>
          have hmono := process_file_mono fs self entry.path
          rw [hpf] at hmono
          cases err with
          | none =>
            have h2 := ih s'
            simp only []
            exact ⟨hmono.1.trans h2.1, hmono.2.trans h2.2⟩
          | some e => simpa using hmono
      · rw [walkFold_ok_nonfile fs self entry (by simpa using hf)]
        exact ih self

theorem walkFold_error_io (fs : FS) (self : FileProcessor)
    (l : List (Except String WalkEntry)) :
    (walkFold fs self l).2 = none ∨
    ∃ e, (walkFold fs self l).2 = some (CflError.io e) := by
  induction l generalizing self with
  | nil => simp [walkFold]
  | cons hd tl ih =>
    cases hd with
    | error e => simpa [walkFold] using ih self
    | ok entry =>
      by_cases hf : entryIsFile entry
      · rw [walkFold_ok_file fs self entry hf]
        cases hpf : process_file fs self entry.path with
        | mk s' err =>
          have hio := process_file_error_io fs self entry.path
          rw [hpf] at hio
          cases err with
          | none => exact ih s'
          | some e => simpa using hio
      · rw [walkFold_ok_nonfile fs self entry (by simpa using hf)]
        exact ih self

/-- Re-running `process_file` on a path it has already handled without
error, from any state whose dedup set contains everything recorded then
and whose pattern sets are unchanged, is a no-op. -/
theorem process_file_reprocess (fs : FS) {s s1 : FileProcessor} (path : FsPath)
    (t : FileProcessor) (h : process_file fs s path = (s1, none))
    (hsub : ∀ c, c ∈ s1.processed_paths → c ∈ t.processed_paths)
    (hin : t.include_patterns = s.include_patterns)
    (hex : t.exclude_patterns = s.exclude_patterns) :
    process_file fs t path = (t, none) := by
  rcases process_file_cases fs s path with
    ⟨e, hc, heq⟩ | ⟨c, hc, hmem, heq⟩ | ⟨c, hc, hmem, hrej, heq⟩ |
    ⟨c, e, hc, hmem, hacc, hread, heq⟩ | ⟨c, content, hc, hmem, hacc, hread, heq⟩
  · rw [heq] at h; simp at h
  · rw [heq] at h
    have hs1 : s1 = s := by cases h; rfl
    exact process_file_dup t hc (hsub c (hs1 ▸ hmem))
  · rw [heq] at h
    have hs1 : s1 = s := by cases h; rfl
    by_cases hmemt : c ∈ t.processed_paths
    · exact process_file_dup t hc hmemt
    · refine process_file_rejected t hc hmemt ?_
      rw [hin, hex]
      exact hrej
  · rw [heq] at h; simp at h
  · rw [heq] at h
    have hs1 : s1 = acceptState s path c content := by cases h; rfl
    refine process_file_dup t hc (hsub c ?_)
    rw [hs1]
    simp [acceptState]

/-- Re-running the walker loop over the same entry list from the state it
produced (without error) changes nothing. -/
theorem walkFold_reprocess (fs : FS) {s s' : FileProcessor}
    {l : List (Except String WalkEntry)} (h : walkFold fs s l = (s', none)) :
    walkFold fs s' l = (s', none) := by
  induction l generalizing s with
  | nil =>
    have : s' = s := by
      rw [walkFold_nil] at h; cases h; rfl
    rw [walkFold_nil, this]
  | cons hd tl ih =>
    cases hd with
    | error e =>
      rw [walkFold_error] at h ⊢
      exact ih h
    | ok entry =>
      by_cases hf : entryIsFile entry
      · rw [walkFold_ok_file fs s entry hf] at h
        rw [walkFold_ok_file fs s' entry hf]
        cases hpf : process_file fs s entry.path with
        | mk s1 err =>
          rw [hpf] at h
          cases err with
          | some e => simp at h
          | none =>
            simp only [] at h
            -- `h : walkFold fs s1 tl = (s', none)`
            have hmono := walkFold_mono fs s1 tl
            rw [h] at hmono
            have hcfg := walkFold_config fs s1 tl
            rw [h] at hcfg
            have hcfg1 := process_file_config fs s entry.path
            rw [hpf] at hcfg1
            have hre : process_file fs s' entry.path = (s', none) := by
              refine process_file_reprocess fs entry.path s' hpf
                (fun c hc => hmono.1.subset hc) ?_ ?_
              · exact hcfg.1.trans hcfg1.1
              · exact hcfg.2.1.trans hcfg1.2.1
            rw [hre]
            exact ih h
      · rw [walkFold_ok_nonfile fs s entry (by simpa using hf)] at h
        rw [walkFold_ok_nonfile fs s' entry (by simpa using hf)]
        exact ih h

theorem process_path_not_found {fs : FS} {path : FsPath} (self : FileProcessor)
    (h : fs.pathExists path = false) :
    process_path fs self path = (self, some (CflError.pathNotFound (pathStr path))) := by
  simp [process_path, h]

theorem process_path_exists {fs : FS} {path : FsPath} (self : FileProcessor)
    (h : fs.pathExists path = true) :
    process_path fs self path = walkFold fs self (fs.walk path) := by
  simp [process_path, h]

/-! ## The deduplication invariant -/

/-- The dedup set never holds a canonical identity twice, and file records
and recorded canonical identities are in bijection (each record was
created together with the insertion of one fresh canonical identity). -/
def DedupInv (self : FileProcessor) : Prop :=
  self.processed_paths.Nodup ∧
  self.target_files.length = self.processed_paths.length

theorem process_file_dedupInv (fs : FS) (self : FileProcessor) (path : FsPath)
    (h : DedupInv self) : DedupInv (process_file fs self path).1 := by
  rcases process_file_cases fs self path with
    ⟨e, hc, heq⟩ | ⟨c, hc, hmem, heq⟩ | ⟨c, hc, hmem, hrej, heq⟩ |
    ⟨c, e, hc, hmem, hacc, hread, heq⟩ | ⟨c, content, hc, hmem, hacc, hread, heq⟩ <;>
    rw [heq] <;> try exact h
  obtain ⟨hnd, hlen⟩ := h
  constructor
  · simp [acceptState, List.nodup_append, hnd, hmem]
  · simp [acceptState, hlen]

theorem walkFold_dedupInv (fs : FS) (self : FileProcessor)
    (l : List (Except String WalkEntry)) (h : DedupInv self) :
    DedupInv (walkFold fs self l).1 := by
  induction l generalizing self with
  | nil => exact h
  | cons hd tl ih =>
    cases hd with
    | error e => rw [walkFold_error]; exact ih self h
    | ok entry =>
      by_cases hf : entryIsFile entry
      · rw [walkFold_ok_file fs self entry hf]
        cases hpf : process_file fs self entry.path with
        | mk s' err =>
          have hpres := process_file_dedupInv fs self entry.path h
          rw [hpf] at hpres
          cases err with
          | none => exact ih s' hpres
          | some e => exact hpres
      · rw [walkFold_ok_nonfile fs self entry (by simpa using hf)]
        exact ih self h

theorem process_path_dedupInv (fs : FS) (self : FileProcessor) (path : FsPath)
    (h : DedupInv self) : DedupInv (process_path fs self path).1 := by
  unfold process_path
  split
  · exact walkFold_dedupInv fs self (fs.walk path) h
  · exact h

theorem new_dedupInv (include_ exclude : Option String) (dir : FsPath) :
    DedupInv (FileProcessor.new include_ exclude dir) := by
  constructor <;> simp [FileProcessor.new]

/-! ## Token counting, spec side

The claim reads `estimate_tokens` as "the number of non-empty maximal
substrings obtained by splitting on the delimiter classes".  That count
is formalised independently of `List.splitOnP` as a left-to-right scan
counting the starts of maximal delimiter-free runs. -/

/-- Number of maximal runs of non-delimiter characters; `prevDelim` says
whether the scan currently stands just after a delimiter (or at the
start). -/
def runsCount (p : Char → Bool) : Bool → List Char → Nat
  | _, [] => 0
  | prevDelim, c :: cs =>
    if p c then runsCount p true cs
    else (if prevDelim then 1 else 0) + runsCount p false cs

/-- The delimiter classes exactly as the spec enumerates them: Unicode
whitespace, ASCII punctuation, the brackets `()[]{}`, and the fixed
operator set. -/
def specDelim (c : Char) : Bool :=
  isUnicodeWhitespace c || isAsciiPunct c || isBracketChar c || isOpChar c

/-- Spec-side token count: the number of non-empty maximal substrings
between delimiter characters. -/
def specTokenCount (s : String) : Nat :=
  runsCount specDelim true s.toList

theorem splitOnP_count_eq_runsCount (p : Char → Bool) (cs : List Char) :
    ((cs.splitOnP p).filter (fun s => !s.isEmpty)).length = runsCount p true cs ∧
    (((cs.splitOnP p).tail).filter (fun s => !s.isEmpty)).length = runsCount p false cs := by
  induction cs with
  | nil => simp [runsCount]
  | cons c cs ih =>
    by_cases h : p c
    · simp only [List.splitOnP_cons, if_pos h, runsCount, h, if_true]
      constructor
      · simpa [List.filter] using ih.1
      · simpa using ih.1
    · obtain ⟨hd, tl, heq⟩ : ∃ hd tl, cs.splitOnP p = hd :: tl := by
        cases hsp : cs.splitOnP p with
        | nil => exact absurd hsp (List.splitOnP_ne_nil p cs)
        | cons hd tl => exact ⟨hd, tl, rfl⟩
      have ih2 := ih.2
      rw [heq] at ih2
      simp only [List.tail] at ih2
      simp only [List.splitOnP_cons, if_neg h, heq, List.modifyHead, runsCount, h,
        if_false, Bool.false_eq_true]
      constructor
      · simp [List.filter, ih2]
        omega
      · simp [ih2]

/-- `estimate_tokens` computes exactly the spec's count of non-empty
maximal delimiter-free substrings. -/
theorem estimate_tokens_eq_spec (s : String) :
    estimate_tokens s = specTokenCount s :=
  (splitOnP_count_eq_runsCount isTokenDelim s.toList).1

/-! ## The result buffer as a concatenation of blocks -/

/-- Ordered concatenation of one fenced block per file record, the
record's `path` naming the block and `contents` supplying each block's
raw file content. -/
def concatBlocks : List FileInfo → List String → String
  | f :: fsRest, c :: cs => block f.path c ++ concatBlocks fsRest cs
  | _, _ => ""

/-- The buffer invariant: the result string is exactly the ordered
concatenation of one fenced block per `FileInfo`, in creation order. -/
def BlockConcat (self : FileProcessor) : Prop :=
  ∃ contents : List String,
    contents.length = self.target_files.length ∧
    self.result = concatBlocks self.target_files contents

theorem concatBlocks_append (l1 : List FileInfo) (l2 : List String)
    (h : l1.length = l2.length) (f : FileInfo) (c : String) :
    concatBlocks (l1 ++ [f]) (l2 ++ [c]) = concatBlocks l1 l2 ++ block f.path c := by
  induction l1 generalizing l2 with
  | nil =>
    cases l2 with
    | nil => simp [concatBlocks]
    | cons b bs => simp at h
  | cons a as ih =>
    cases l2 with
    | nil => simp at h
    | cons b bs =>
      simp only [List.length_cons, Nat.succ_inj] at h
      simp only [List.cons_append, concatBlocks, List.append_eq]
      rw [ih bs h, String.append_assoc]

theorem process_file_blockConcat (fs : FS) (self : FileProcessor) (path : FsPath)
    (h : BlockConcat self) : BlockConcat (process_file fs self path).1 := by
  rcases process_file_cases fs self path with
    ⟨e, hc, heq⟩ | ⟨c, hc, hmem, heq⟩ | ⟨c, hc, hmem, hrej, heq⟩ |
    ⟨c, e, hc, hmem, hacc, hread, heq⟩ | ⟨c, content, hc, hmem, hacc, hread, heq⟩ <;>
    rw [heq] <;> try exact h
  obtain ⟨contents, hlen, hres⟩ := h
  refine ⟨contents ++ [content], ?_, ?_⟩
  · simp [acceptState, hlen]
  · simp only [acceptState]
    rw [concatBlocks_append self.target_files contents hlen.symm, hres]

theorem walkFold_blockConcat (fs : FS) (self : FileProcessor)
    (l : List (Except String WalkEntry)) (h : BlockConcat self) :
    BlockConcat (walkFold fs self l).1 := by
  induction l generalizing self with
  | nil => exact h
  | cons hd tl ih =>
    cases hd with
    | error e => rw [walkFold_error]; exact ih self h
    | ok entry =>
      by_cases hf : entryIsFile entry
      · rw [walkFold_ok_file fs self entry hf]
        cases hpf : process_file fs self entry.path with
        | mk s' err =>
          have hpres := process_file_blockConcat fs self entry.path h
          rw [hpf] at hpres
          cases err with
          | none => exact ih s' hpres
          | some e => exact hpres
      · rw [walkFold_ok_nonfile fs self entry (by simpa using hf)]
        exact ih self h

theorem process_path_blockConcat (fs : FS) (self : FileProcessor) (path : FsPath)
    (h : BlockConcat self) : BlockConcat (process_path fs self path).1 := by
  unfold process_path
  split
  · exact walkFold_blockConcat fs self (fs.walk path) h
  · exact h

theorem new_blockConcat (include_ exclude : Option String) (dir : FsPath) :
    BlockConcat (FileProcessor.new include_ exclude dir) :=
  ⟨[], by simp [FileProcessor.new], by simp [FileProcessor.new, concatBlocks]⟩

theorem foldl_process_path_dedupInv (fs : FS) (roots : List FsPath)
    (s : FileProcessor) (h : DedupInv s) :
    DedupInv (roots.foldl (fun s r => (process_path fs s r).1) s) := by
  induction roots generalizing s with
  | nil => exact h
  | cons r rs ih => exact ih _ (process_path_dedupInv fs s r h)

/-! ## Concrete fixtures (used by witnesses and counterexamples) -/

def demoRoot : FsPath := ["home", "proj"]
def demoFileA : FsPath := ["home", "proj", "a.rs"]
def demoFileB : FsPath := ["home", "proj", "b.md"]

/-- A small concrete filesystem: a root directory holding two readable
files; canonicalization is the identity. -/
def fsDemo : FS where
  pathExists p := p == demoRoot
  walk p :=
    if p == demoRoot then
      [.ok ⟨demoRoot, some .dir⟩, .ok ⟨demoFileA, some .file⟩, .ok ⟨demoFileB, some .file⟩]
    else []
  canonicalize p := .ok p
  readToString p :=
    if p == demoFileA then .ok "fn a() -> i32;"
    else if p == demoFileB then .ok "hello world"
    else .error "NotFound"

/-- The processor state after processing `demoRoot` with no patterns. -/
def procDemo : FileProcessor :=
  (process_path fsDemo (FileProcessor.new none none demoRoot) demoRoot).1

def errRoot : FsPath := ["srv"]
def errGood : FsPath := ["srv", "good.rs"]
def errBad : FsPath := ["srv", "bad.rs"]
def errCanon : FsPath := ["srv", "loop.rs"]

/-- A filesystem whose walk reports one per-entry error, then a readable
file, then a file whose read fails. -/
def fsErr : FS where
  pathExists p := p == errRoot
  walk p :=
    if p == errRoot then
      [.error "permission denied: sub", .ok ⟨errGood, some .file⟩, .ok ⟨errBad, some .file⟩]
    else []
  canonicalize p := .ok p
  readToString p := if p == errGood then .ok "let g = 1;" else .error "permission denied"

/-- A filesystem on which canonicalization always fails. -/
def fsCanon : FS where
  pathExists p := p == errRoot
  walk p := if p == errRoot then [.ok ⟨errCanon, some .file⟩] else []
  canonicalize _ := .error "ELOOP"
  readToString _ := .error "unreachable"

/-- A processor whose exclude set matches every name. -/
def procExcludeAll : FileProcessor := FileProcessor.new none (some "*") errRoot

/-! ## Claims -/

/-- C1: once a candidate reaches the filter (canonicalization succeeded
and the identity is fresh), `process_file`'s decision is exactly the spec
policy: an exclude match rejects regardless of the include set; otherwise
a non-empty include set with no match rejects; otherwise the file is
accepted (read and recorded).  In particular an exclude match rejects
even when an include pattern also matches, and with an empty include set
every name not matching an exclude pattern is accepted. -/
theorem c1_filter_policy (fs : FS) (self : FileProcessor) (path c : FsPath)
    (hc : fs.canonicalize path = .ok c) (hmem : c ∉ self.processed_paths) :
    (specFilterAccepts self.exclude_patterns self.include_patterns (nameOf path) = false →
      process_file fs self path = (self, none)) ∧
    (∀ content, fs.readToString path = .ok content →
      specFilterAccepts self.exclude_patterns self.include_patterns (nameOf path) = true →
      process_file fs self path = (acceptState self path c content, none)) ∧
    ((self.exclude_patterns.any fun p => p.matches (nameOf path)) = true →
      process_file fs self path = (self, none)) ∧
    (self.include_patterns = [] →
      (self.exclude_patterns.any fun p => p.matches (nameOf path)) = false →
      ∀ content, fs.readToString path = .ok content →
      process_file fs self path = (acceptState self path c content, none)) := by
  refine ⟨fun hrej => process_file_rejected self hc hmem hrej,
    fun content hread hacc => process_file_accept self hc hmem hacc hread,
    fun hex => process_file_rejected self hc hmem (by simp [specFilterAccepts, hex]),
    fun hinc hex content hread =>
      process_file_accept self hc hmem (by simp [specFilterAccepts, hex, hinc]) hread⟩

theorem c1_filter_policy_witness :
    process_file fsDemo (FileProcessor.new (some "*.rs") (some "*_test.rs") demoRoot)
        demoFileA =
      (acceptState (FileProcessor.new (some "*.rs") (some "*_test.rs") demoRoot)
        demoFileA demoFileA "fn a() -> i32;", none) :=
  (c1_filter_policy fsDemo (FileProcessor.new (some "*.rs") (some "*_test.rs") demoRoot)
    demoFileA demoFileA rfl (by decide)).2.1 "fn a() -> i32;" rfl (by decide)

/-- C2: canonical-identity deduplication.  (a) A later encounter of an
already-recorded identity is silently skipped: no error, no record, no
state change.  (b) A record is created exactly together with the
insertion of one fresh canonical identity.  (c) Over a whole lifetime of
`process_path` calls the dedup set stays duplicate-free and holds exactly
one identity per record, so no two records share a canonical identity.
(d) Processing the same root a second time changes nothing. -/
theorem c2_dedup (fs : FS) :
    (∀ (self : FileProcessor) (path c : FsPath), fs.canonicalize path = .ok c →
        c ∈ self.processed_paths → process_file fs self path = (self, none)) ∧
    (∀ (self : FileProcessor) (path : FsPath),
        ((process_file fs self path).1.target_files = self.target_files ∧
         (process_file fs self path).1.processed_paths = self.processed_paths) ∨
        (∃ c r, fs.canonicalize path = .ok c ∧ c ∉ self.processed_paths ∧
          (process_file fs self path).1.target_files = self.target_files ++ [r] ∧
          (process_file fs self path).1.processed_paths = self.processed_paths ++ [c])) ∧
    (∀ (include_ exclude : Option String) (dir : FsPath) (roots : List FsPath),
        DedupInv (roots.foldl (fun s r => (process_path fs s r).1)
          (FileProcessor.new include_ exclude dir))) ∧
    (∀ (self self' : FileProcessor) (root : FsPath),
        process_path fs self root = (self', none) →
        process_path fs self' root = (self', none)) := by
  refine ⟨fun self path c hc hmem => process_file_dup self hc hmem,
    fun self path => ?_,
    fun include_ exclude dir roots =>
      foldl_process_path_dedupInv fs roots _ (new_dedupInv include_ exclude dir),
    fun self self' root h => ?_⟩
  · rcases process_file_cases fs self path with
      ⟨e, hc, heq⟩ | ⟨c, hc, hmem, heq⟩ | ⟨c, hc, hmem, hrej, heq⟩ |
      ⟨c, e, hc, hmem, hacc, hread, heq⟩ | ⟨c, content, hc, hmem, hacc, hread, heq⟩ <;>
      rw [heq]
    · exact Or.inl ⟨rfl, rfl⟩
    · exact Or.inl ⟨rfl, rfl⟩
    · exact Or.inl ⟨rfl, rfl⟩
    · exact Or.inl ⟨rfl, rfl⟩
    · exact Or.inr ⟨c,
        ⟨relDisplay self.current_dir path, content.utf8ByteSize, estimate_tokens content⟩,
        hc, hmem, by simp [acceptState], by simp [acceptState]⟩
  · cases hex : fs.pathExists root with
    | false =>
      rw [process_path_not_found self hex] at h
      simp at h
    | true =>
      rw [process_path_exists self hex] at h
      rw [process_path_exists self' hex]
      exact walkFold_reprocess fs h

theorem c2_dedup_witness :
    process_file fsDemo
      { FileProcessor.new none none demoRoot with processed_paths := [demoFileA] }
      demoFileA =
    ({ FileProcessor.new none none demoRoot with processed_paths := [demoFileA] }, none) :=
  (c2_dedup fsDemo).1 _ demoFileA demoFileA rfl (by decide)

/-- C3: `get_total_size` is the byte length of the string `get_result`
returns — always, by definition of the accessors — and it can differ from
the sum of the `size` fields of the records, as the concrete two-file run
`procDemo` shows (fence-marker and path overhead). -/
theorem c3_total_size :
    (∀ self : FileProcessor, self.get_total_size = self.get_result.utf8ByteSize) ∧
    procDemo.get_total_size = procDemo.get_result.utf8ByteSize ∧
    procDemo.get_total_size ≠ ((procDemo.get_target_files.map (fun f => f.size)).sum) := by
  refine ⟨fun self => rfl, rfl, by decide⟩

/-- C4: `estimate_tokens` equals the count of non-empty maximal substrings
obtained by splitting on exactly the delimiter classes the spec lists; it
is deterministic; and the `tokens` field of every record created by
`process_file` is `estimate_tokens` of the file content that was read. -/
theorem c4_estimate_tokens :
    (∀ s, estimate_tokens s = specTokenCount s) ∧
    (∀ s t, s = t → estimate_tokens s = estimate_tokens t) ∧
    (∀ (fs : FS) (self : FileProcessor) (path : FsPath),
        (process_file fs self path).1.target_files = self.target_files ∨
        ∃ content r, fs.readToString path = .ok content ∧
          r.tokens = estimate_tokens content ∧
          (process_file fs self path).1.target_files = self.target_files ++ [r]) := by
  refine ⟨estimate_tokens_eq_spec, fun s t h => h ▸ rfl, fun fs self path => ?_⟩
  rcases process_file_cases fs self path with
    ⟨e, hc, heq⟩ | ⟨c, hc, hmem, heq⟩ | ⟨c, hc, hmem, hrej, heq⟩ |
    ⟨c, e, hc, hmem, hacc, hread, heq⟩ | ⟨c, content, hc, hmem, hacc, hread, heq⟩ <;>
    rw [heq]
  · exact Or.inl rfl
  · exact Or.inl rfl
  · exact Or.inl rfl
  · exact Or.inl rfl
  · exact Or.inr ⟨content,
      ⟨relDisplay self.current_dir path, content.utf8ByteSize, estimate_tokens content⟩,
      hread, rfl, by simp [acceptState]⟩

theorem c4_estimate_tokens_witness :
    estimate_tokens "fn a() -> i32;" = estimate_tokens "fn a() -> i32;" ∧
    estimate_tokens "fn a() -> i32;" = specTokenCount "fn a() -> i32;" ∧
    estimate_tokens "fn a() -> i32;" = 3 :=
  ⟨c4_estimate_tokens.2.1 "fn a() -> i32;" "fn a() -> i32;" rfl,
   c4_estimate_tokens.1 "fn a() -> i32;", by decide⟩

/-- C6: the result buffer is exactly the ordered concatenation of one
fenced block per record: it starts that way at construction, every
`process_file` and `process_path` keeps it that way, and each acceptance
appends exactly the block "fence + relative path + newline + content +
newline + fence + newline", with no other separator. -/
theorem c6_buffer_blocks :
    (∀ (include_ exclude : Option String) (dir : FsPath),
        BlockConcat (FileProcessor.new include_ exclude dir)) ∧
    (∀ (fs : FS) (self : FileProcessor) (path : FsPath),
        BlockConcat self → BlockConcat (process_file fs self path).1) ∧
    (∀ (fs : FS) (self : FileProcessor) (path : FsPath),
        BlockConcat self → BlockConcat (process_path fs self path).1) ∧
    (∀ (fs : FS) (self : FileProcessor) (path c : FsPath) (content : String),
        fs.canonicalize path = .ok c → c ∉ self.processed_paths →
        specFilterAccepts self.exclude_patterns self.include_patterns (nameOf path) = true →
        fs.readToString path = .ok content →
        (process_file fs self path).1.result =
          self.result ++ block (relDisplay self.current_dir path) content ∧
        (process_file fs self path).1.target_files = self.target_files ++
          [⟨relDisplay self.current_dir path, content.utf8ByteSize,
            estimate_tokens content⟩]) := by
  refine ⟨new_blockConcat, process_file_blockConcat, process_path_blockConcat,
    fun fs self path c content hc hmem hacc hread => ?_⟩
  rw [process_file_accept self hc hmem hacc hread]
  exact ⟨rfl, rfl⟩

theorem c6_buffer_blocks_witness : BlockConcat procDemo :=
  c6_buffer_blocks.2.2.1 fsDemo (FileProcessor.new none none demoRoot) demoRoot
    (c6_buffer_blocks.1 none none demoRoot)

/-- C7: a non-existent path makes `process_path` fail with `PathNotFound`
carrying that path and leave the state untouched; on an existing path
`process_path` never returns `PathNotFound`; and whenever `PathNotFound`
is returned the accumulated state (records, buffer, dedup set) is exactly
the caller's. -/
theorem c7_path_not_found (fs : FS) (self : FileProcessor) (path : FsPath) :
    (fs.pathExists path = false →
      process_path fs self path = (self, some (CflError.pathNotFound (pathStr path)))) ∧
    (fs.pathExists path = true →
      ∀ q, (process_path fs self path).2 ≠ some (CflError.pathNotFound q)) ∧
    (∀ (st' : FileProcessor) (q : String),
      process_path fs self path = (st', some (CflError.pathNotFound q)) →
      st' = self ∧ st'.target_files = self.target_files ∧
      st'.result = self.result ∧ st'.processed_paths = self.processed_paths) := by
  refine ⟨fun h => process_path_not_found self h, fun h q => ?_, fun st' q h => ?_⟩
  · rw [process_path_exists self h]
    rcases walkFold_error_io fs self (fs.walk path) with hio | ⟨e, hio⟩ <;>
      simp [hio]
  · cases hex : fs.pathExists path with
    | false =>
      rw [process_path_not_found self hex] at h
      have hst : st' = self := by cases h; rfl
      exact ⟨hst, by rw [hst], by rw [hst], by rw [hst]⟩
    | true =>
      rw [process_path_exists self hex] at h
      rcases walkFold_error_io fs self (fs.walk path) with hio | ⟨e, hio⟩ <;>
        rw [h] at hio <;> simp at hio

theorem c7_path_not_found_witness :
    process_path fsDemo (FileProcessor.new none none demoRoot) ["no", "such"] =
      (FileProcessor.new none none demoRoot,
        some (CflError.pathNotFound "/no/such")) :=
  (c7_path_not_found fsDemo (FileProcessor.new none none demoRoot) ["no", "such"]).1 rfl

/-- C8: error asymmetry.  A walk-level entry error is skipped — the loop
continues and contributes nothing — so removing it never changes the
outcome; whereas a read failure on a file that passed filtering and
deduplication aborts `process_path` with that error while the records and
buffer content accumulated earlier in the same call (state `st1`,
extending the caller's state) are retained. -/
theorem c8_error_asymmetry (fs : FS) :
    (∀ (self : FileProcessor) (e : String) (rest : List (Except String WalkEntry)),
        walkFold fs self (.error e :: rest) = walkFold fs self rest) ∧
    (∀ (self : FileProcessor) (l1 : List (Except String WalkEntry)) (e : String)
        (l2 : List (Except String WalkEntry)),
        walkFold fs self (l1 ++ .error e :: l2) = walkFold fs self (l1 ++ l2)) ∧
    (∀ (self : FileProcessor) (root : FsPath) (l1 : List (Except String WalkEntry))
        (entry : WalkEntry) (l2 : List (Except String WalkEntry))
        (st1 : FileProcessor) (c : FsPath) (e : String),
        fs.pathExists root = true →
        fs.walk root = l1 ++ .ok entry :: l2 →
        entryIsFile entry = true →
        walkFold fs self l1 = (st1, none) →
        fs.canonicalize entry.path = .ok c →
        c ∉ st1.processed_paths →
        specFilterAccepts st1.exclude_patterns st1.include_patterns
          (nameOf entry.path) = true →
        fs.readToString entry.path = .error e →
        process_path fs self root = (st1, some (CflError.io e)) ∧
        self.target_files <+: st1.target_files ∧
        self.processed_paths <+: st1.processed_paths) := by
  refine ⟨walkFold_error fs, fun self l1 e l2 => ?_,
    fun self root l1 entry l2 st1 c e hex hwalk hf hfold hc hmem hacc hread => ?_⟩
  · rw [walkFold_append, walkFold_append]
    cases hl1 : walkFold fs self l1 with
    | mk s' err =>
      cases err with
      | none => simp [walkFold_error]
      | some e' => simp
  · have hmono := walkFold_mono fs self l1
    rw [hfold] at hmono
    refine ⟨?_, hmono.2, hmono.1⟩
    rw [process_path_exists self hex, hwalk, walkFold_append, hfold]
    simp only []
    rw [walkFold_ok_file fs st1 entry hf,
      process_file_read_error st1 hc hmem hacc hread]

theorem c8_error_asymmetry_witness :
    process_path fsErr (FileProcessor.new none none errRoot) errRoot =
      ((walkFold fsErr (FileProcessor.new none none errRoot)
          [.error "permission denied: sub", .ok ⟨errGood, some .file⟩]).1,
        some (CflError.io "permission denied")) :=
  ((c8_error_asymmetry fsErr).2.2 (FileProcessor.new none none errRoot) errRoot
    [.error "permission denied: sub", .ok ⟨errGood, some .file⟩]
    ⟨errBad, some .file⟩ [] _ errBad "permission denied"
    rfl rfl rfl (by decide) rfl (by decide) (by decide) rfl).1

/-- C10: `process_file` canonicalizes before consulting the filters, so a
canonicalization failure aborts with an `Io` error for every processor
state — even one whose exclude set matches the file's name — and such a
failure on any walked file entry aborts the whole `process_path` call. -/
theorem c10_canonicalize_first (fs : FS) :
    (∀ (self : FileProcessor) (path : FsPath) (e : String),
        fs.canonicalize path = .error e →
        process_file fs self path = (self, some (CflError.io e))) ∧
    (∀ (self : FileProcessor) (root : FsPath) (l1 : List (Except String WalkEntry))
        (entry : WalkEntry) (l2 : List (Except String WalkEntry))
        (st1 : FileProcessor) (e : String),
        fs.pathExists root = true →
        fs.walk root = l1 ++ .ok entry :: l2 →
        entryIsFile entry = true →
        walkFold fs self l1 = (st1, none) →
        fs.canonicalize entry.path = .error e →
        process_path fs self root = (st1, some (CflError.io e))) := by
  refine ⟨fun self path e h => process_file_canon_error self h,
    fun self root l1 entry l2 st1 e hex hwalk hf hfold hc => ?_⟩
  rw [process_path_exists self hex, hwalk, walkFold_append, hfold]
  simp only []
  rw [walkFold_ok_file fs st1 entry hf, process_file_canon_error st1 hc]

theorem c10_canonicalize_first_witness :
    process_file fsCanon procExcludeAll errCanon =
      (procExcludeAll, some (CflError.io "ELOOP")) ∧
    process_path fsCanon procExcludeAll errRoot =
      (procExcludeAll, some (CflError.io "ELOOP")) ∧
    (procExcludeAll.exclude_patterns.any
      fun p => p.matches (nameOf errCanon)) = true :=
  ⟨(c10_canonicalize_first fsCanon).1 procExcludeAll errCanon "ELOOP" rfl,
   (c10_canonicalize_first fsCanon).2 procExcludeAll errRoot []
     ⟨errCanon, some .file⟩ [] procExcludeAll "ELOOP" rfl rfl rfl rfl rfl,
   by decide⟩

/-- C5 (counterexample): an empty include string does not behave like an
absent include.  `"".split(',')` yields one empty pattern, so the
compiled include set is the non-empty `[Pattern.new ""]`; with it the
file `a.rs` is filtered out, while with an absent include the same file
is accepted. -/
theorem c5_empty_pattern_counterexample :
    (FileProcessor.new (some "") none demoRoot).include_patterns ≠
      (FileProcessor.new none none demoRoot).include_patterns ∧
    process_file fsDemo (FileProcessor.new (some "") none demoRoot) demoFileA =
      (FileProcessor.new (some "") none demoRoot, none) ∧
    (process_file fsDemo (FileProcessor.new none none demoRoot) demoFileA).1.target_files ≠
      [] := by
  refine ⟨by decide, by decide, by decide⟩

/-- C5 (amended): an absent pattern string compiles to the empty set, but
the empty pattern string compiles to the singleton set holding the empty
pattern, which matches only the empty name; so an empty-string include
rejects every file with a non-empty name instead of accepting everything,
and an empty-string exclude excludes only files with an empty name. -/
theorem c5_empty_pattern_amended :
    (∀ dir : FsPath, (FileProcessor.new none none dir).include_patterns = [] ∧
        (FileProcessor.new none none dir).exclude_patterns = []) ∧
    (∀ dir : FsPath,
        (FileProcessor.new (some "") (some "") dir).include_patterns = [Pattern.new ""] ∧
        (FileProcessor.new (some "") (some "") dir).exclude_patterns = [Pattern.new ""]) ∧
    (∀ name : String, name ≠ "" → Pattern.matches (Pattern.new "") name = false) ∧
    Pattern.matches (Pattern.new "") "" = true := by
  refine ⟨fun dir => ⟨rfl, rfl⟩, fun dir => ⟨rfl, rfl⟩, fun name h => ?_, rfl⟩
  show globMatch [] name.toList = false
  unfold globMatch
  cases hn : name.toList with
  | nil =>
    exfalso
    apply h
    have : name.toList = "".toList := hn
    exact String.toList_inj.mp this
  | cons c cs => rfl

theorem c5_empty_pattern_amended_witness :
    Pattern.matches (Pattern.new "") "a.rs" = false :=
  c5_empty_pattern_amended.2.2.1 "a.rs" (by decide)

/-! ## Directory structure (`build_directory_structure`)

The walker entries are filtered (dropping every entry whose absolute path
has a non-final `.git` component — the `contains("/.git/")` test on the
slash-joined path — or whose own name is `.git` or `.gitignore`), then
each surviving entry's relative path and all its ancestor prefixes are
inserted into an ordered map (`BTreeMap<PathBuf, bool>`, modelled as an
association list sorted by the component-wise lexicographic order that
`PathBuf`'s `Ord` implements, with first-insert-wins semantics matching
the `contains_key` guard), and the map is rendered in key order. -/

/-- The entry filter of `build_directory_structure`. -/
def entryKeep (e : WalkEntry) : Bool :=
  !(e.path.dropLast.contains ".git") &&
  ((e.path.getLast?).map (fun n => n != ".git" && n != ".gitignore")).getD false

/-- Does the walker entry report a directory
(`entry.file_type().map_or(false, |ft| ft.is_dir())`)? -/
def entryReportsDir (e : WalkEntry) : Bool :=
  (e.ftype.map (fun ft => ft == FType.dir)).getD false

/-- Lexicographic comparison of character lists by code point, which on
UTF-8 data coincides with the byte-wise `Ord` of Rust's `OsStr`. -/
def charListLt : List Char → List Char → Bool
  | [], [] => false
  | [], _ :: _ => true
  | _ :: _, [] => false
  | a :: as, b :: bs =>
    if a.val.toNat < b.val.toNat then true
    else if b.val.toNat < a.val.toNat then false
    else charListLt as bs

/-- Path-component comparison (`OsStr`'s `Ord`). -/
def strLt (a b : String) : Bool := charListLt a.toList b.toList

/-- Component-wise lexicographic order on relative paths: the order of
`PathBuf`'s `Ord` instance, which `BTreeMap` iterates by. -/
def keyLt : List String → List String → Bool
  | [], [] => false
  | [], _ :: _ => true
  | _ :: _, [] => false
  | a :: as, b :: bs => if strLt a b then true else if strLt b a then false else keyLt as bs

/-- The ordered map of `build_directory_structure`, as a sorted
association list from relative path to its `is_dir` flag. -/
abbrev DirTree := List (List String × Bool)

/-- Ordered insert with first-value-wins semantics (the source only
inserts under a `!tree.contains_key(..)` guard). -/
def treeInsert (k : List String) (v : Bool) : DirTree → DirTree
  | [] => [(k, v)]
  | (k', v') :: rest =>
    if keyLt k k' then (k, v) :: (k', v') :: rest
    else if k = k' then (k', v') :: rest
    else (k', v') :: treeInsert k v rest

/-- The keys inserted for one entry: every non-empty leading portion of
its relative path, carrying the entry's own `is_dir` when the portion is
the full relative path and `true` (synthesized ancestor directory)
otherwise. -/
def entryKeys (rel : List String) (is_dir : Bool) : List (List String × Bool) :=
  (List.range rel.length).map (fun j =>
    (rel.take (j + 1), if rel.take (j + 1) = rel then is_dir else true))

def insertList (ps : List (List String × Bool)) (t : DirTree) : DirTree :=
  ps.foldl (fun acc p => treeInsert p.1 p.2 acc) t

/-- One iteration of the entry loop of `build_directory_structure`. -/
def addEntry (root : FsPath) (t : DirTree) (e : WalkEntry) : DirTree :=
  if root.isPrefixOf e.path then
    let rel := e.path.drop root.length
    if rel.isEmpty then t
    else insertList (entryKeys rel (entryReportsDir e)) t
  else t

/-- The surviving walker entries of `build_directory_structure`. -/
def keptEntries (fs : FS) (root : FsPath) : List WalkEntry :=
  (fs.walk root).filterMap (fun r =>
    match r with
    | .ok e => if entryKeep e then some e else none
    | .error _ => none)

/-- The fully built ordered map. -/
def structureEntries (fs : FS) (root : FsPath) : DirTree :=
  (keptEntries fs root).foldl (addEntry root) []

/-- One rendered line: two-space indentation per path segment below the
root, the branch glyph, the entry's name, and a trailing `/` marker on
directories. -/
def renderLine (k : List String) (is_dir : Bool) : String :=
  let indent := String.join (List.replicate (k.length - 1) "  ")
  let name := (k.getLast?).getD ""
  if is_dir then indent ++ "└── " ++ name ++ "/\n"
  else indent ++ "└── " ++ name ++ "\n"

/-- `FileProcessor::build_directory_structure` (its `Result` is always
`Ok`). -/
def build_directory_structure (fs : FS) (path : FsPath) : String :=
  String.join ((structureEntries fs path).map (fun p => renderLine p.1 p.2))

/-- `FileProcessor::get_directory_structure`. -/
def get_directory_structure (fs : FS) (self : FileProcessor) : String :=
  build_directory_structure fs self.current_dir

/-! ### Order lemmas for the tree key order -/

theorem charEq_of_toNat_eq {a b : Char} (h : a.val.toNat = b.val.toNat) : a = b :=
  Char.ext (UInt32.toNat.inj h)

theorem charListLt_asymm (a : List Char) :
    ∀ b, charListLt a b = true → charListLt b a = false := by
  induction a with
  | nil =>
    intro b h
    cases b with
    | nil => simp [charListLt] at h
    | cons y ys => simp [charListLt]
  | cons x xs ih =>
    intro b h
    cases b with
    | nil => simp [charListLt] at h
    | cons y ys =>
      unfold charListLt at h ⊢
      by_cases h1 : x.val.toNat < y.val.toNat
      · rw [if_neg (by omega), if_pos h1]
      · by_cases h2 : y.val.toNat < x.val.toNat
        · rw [if_neg h1, if_pos h2] at h
          simp at h
        · rw [if_neg h1, if_neg h2] at h
          rw [if_neg h2, if_neg h1]
          exact ih ys h

theorem charListLt_trans (a : List Char) :
    ∀ b c, charListLt a b = true → charListLt b c = true → charListLt a c = true := by
  induction a with
  | nil =>
    intro b c hab hbc
    cases c with
    | nil =>
      cases b with
      | nil => simp [charListLt] at hab
      | cons y ys => simp [charListLt] at hbc
    | cons z zs => simp [charListLt]
  | cons x xs ih =>
    intro b c hab hbc
    cases b with
    | nil => simp [charListLt] at hab
    | cons y ys =>
      cases c with
      | nil => simp [charListLt] at hbc
      | cons z zs =>
        unfold charListLt at hab hbc ⊢
        by_cases h1 : x.val.toNat < y.val.toNat
        · by_cases h2 : y.val.toNat < z.val.toNat
          · rw [if_pos (by omega)]
          · rw [if_neg h2] at hbc
            by_cases h3 : z.val.toNat < y.val.toNat
            · rw [if_pos h3] at hbc
              simp at hbc
            · rw [if_pos (by omega)]
        · rw [if_neg h1] at hab
          by_cases h2 : y.val.toNat < x.val.toNat
          · rw [if_pos h2] at hab
            simp at hab
          · rw [if_neg h2] at hab
            by_cases h3 : y.val.toNat < z.val.toNat
            · rw [if_pos (by omega)]
            · rw [if_neg h3] at hbc
              by_cases h4 : z.val.toNat < y.val.toNat
              · rw [if_pos h4] at hbc
                simp at hbc
              · rw [if_neg h4] at hbc
                rw [if_neg (by omega), if_neg (by omega)]
                exact ih ys zs hab hbc

theorem charListLt_flip (a : List Char) :
    ∀ b, charListLt a b = false → a ≠ b → charListLt b a = true := by
  induction a with
  | nil =>
    intro b h hne
    cases b with
    | nil => exact absurd rfl hne
    | cons y ys => simp [charListLt] at h
  | cons x xs ih =>
    intro b h hne
    cases b with
    | nil => simp [charListLt]
    | cons y ys =>
      unfold charListLt at h ⊢
      by_cases h1 : x.val.toNat < y.val.toNat
      · rw [if_pos h1] at h
        simp at h
      · rw [if_neg h1] at h
        by_cases h2 : y.val.toNat < x.val.toNat
        · rw [if_pos h2]
        · rw [if_neg h2] at h
          rw [if_neg h2, if_neg h1]
          have hxy : x = y := charEq_of_toNat_eq (by omega)
          refine ih ys h (fun hcontra => hne ?_)
          rw [hxy, hcontra]

theorem strLt_asymm {a b : String} (h : strLt a b = true) : strLt b a = false :=
  charListLt_asymm a.toList b.toList h

theorem strLt_trans {a b c : String} (hab : strLt a b = true) (hbc : strLt b c = true) :
    strLt a c = true :=
  charListLt_trans a.toList b.toList c.toList hab hbc

theorem strLt_flip {a b : String} (h : strLt a b = false) (hne : a ≠ b) :
    strLt b a = true :=
  charListLt_flip a.toList b.toList h (fun he => hne (String.toList_inj.mp he))

theorem strLt_irrefl (a : String) : strLt a a = false := by
  cases h : strLt a a with
  | false => rfl
  | true => simpa [h] using strLt_asymm h

theorem keyLt_asymm (a : List String) :
    ∀ b, keyLt a b = true → keyLt b a = false := by
  induction a with
  | nil =>
    intro b h
    cases b with
    | nil => simp [keyLt] at h
    | cons y ys => simp [keyLt]
  | cons x xs ih =>
    intro b h
    cases b with
    | nil => simp [keyLt] at h
    | cons y ys =>
      unfold keyLt at h ⊢
      by_cases h1 : strLt x y = true
      · rw [if_neg (by simp [strLt_asymm h1]), if_pos h1]
      · rw [if_neg h1] at h
        by_cases h2 : strLt y x = true
        · rw [if_pos h2] at h
          simp at h
        · rw [if_neg h2] at h
          rw [if_neg h2, if_neg h1]
          exact ih ys h

theorem keyLt_irrefl (a : List String) : keyLt a a = false := by
  cases h : keyLt a a with
  | false => rfl
  | true => simpa [h] using keyLt_asymm a a h

theorem keyLt_trans (a : List String) :
    ∀ b c, keyLt a b = true → keyLt b c = true → keyLt a c = true := by
  induction a with
  | nil =>
    intro b c hab hbc
    cases c with
    | nil =>
      cases b with
      | nil => simp [keyLt] at hab
      | cons y ys => simp [keyLt] at hbc
    | cons z zs => simp [keyLt]
  | cons x xs ih =>
    intro b c hab hbc
    cases b with
    | nil => simp [keyLt] at hab
    | cons y ys =>
      cases c with
      | nil => simp [keyLt] at hbc
      | cons z zs =>
        unfold keyLt at hab hbc ⊢
        by_cases h1 : strLt x y = true
        · by_cases h2 : strLt y z = true
          · rw [if_pos (strLt_trans h1 h2)]
          · rw [if_neg h2] at hbc
            by_cases h3 : strLt z y = true
            · rw [if_pos h3] at hbc
              simp at hbc
            · -- `y = z`, so `x < z`
              have hyz : y = z := by
                by_contra hne
                exact h3 (strLt_flip (by simpa using h2) hne)
              rw [if_pos (hyz ▸ h1)]
        · rw [if_neg h1] at hab
          by_cases h2 : strLt y x = true
          · rw [if_pos h2] at hab
            simp at hab
          · rw [if_neg h2] at hab
            have hxy : x = y := by
              by_contra hne
              exact h2 (strLt_flip (by simpa using h1) hne)
            by_cases h3 : strLt y z = true
            · rw [if_pos (hxy ▸ h3)]
            · rw [if_neg h3] at hbc
              by_cases h4 : strLt z y = true
              · rw [if_pos h4] at hbc
                simp at hbc
              · rw [if_neg h4] at hbc
                rw [if_neg (by rw [hxy]; exact h3), if_neg (by rw [hxy]; exact h4)]
                exact ih ys zs hab hbc

theorem keyLt_flip (a : List String) :
    ∀ b, keyLt a b = false → a ≠ b → keyLt b a = true := by
  induction a with
  | nil =>
    intro b h hne
    cases b with
    | nil => exact absurd rfl hne
    | cons y ys => simp [keyLt] at h
  | cons x xs ih =>
    intro b h hne
    cases b with
    | nil => simp [keyLt]
    | cons y ys =>
      unfold keyLt at h ⊢
      by_cases h1 : strLt x y = true
      · rw [if_pos h1] at h
        simp at h
      · rw [if_neg h1] at h
        by_cases h2 : strLt y x = true
        · rw [if_pos h2]
        · rw [if_neg h2] at h
          rw [if_neg h2, if_neg h1]
          have hxy : x = y := by
            by_contra hcontra
            exact h2 (strLt_flip (by simpa using h1) hcontra)
          refine ih ys h (fun hcontra => hne ?_)
          rw [hxy, hcontra]

/-- A proper leading portion of a path sorts strictly before the path:
the reason a parent's line always precedes its descendants'. -/
theorem keyLt_of_ne_isPrefixOf (k : List String) :
    ∀ k', k ≠ k' → k <+: k' → keyLt k k' = true := by
  induction k with
  | nil =>
    intro k' hne hp
    cases k' with
    | nil => exact absurd rfl hne
    | cons y ys => simp [keyLt]
  | cons x xs ih =>
    intro k' hne hp
    obtain ⟨t, ht⟩ := hp
    cases k' with
    | nil => simp at ht
    | cons y ys =>
      have hx : x = y := by
        have := congrArg (fun l => l.head?) ht
        simpa using this
      have hys : xs ++ t = ys := by
        have := congrArg (fun l => l.tail) ht
        simpa using this
      unfold keyLt
      rw [hx, if_neg (by simp [strLt_irrefl]), if_neg (by simp [strLt_irrefl])]
      refine ih ys ?_ ⟨t, hys⟩
      intro hcontra
      apply hne
      rw [hx, hcontra]

/-! ### Sorted-map lemmas -/

/-- The association list is strictly sorted by the `BTreeMap` key order. -/
def TreeSorted (t : DirTree) : Prop :=
  t.Pairwise (fun a b => keyLt a.1 b.1 = true)

theorem treeInsert_mem {k : List String} {v : Bool} {t : DirTree}
    {p : List String × Bool} (h : p ∈ treeInsert k v t) : p = (k, v) ∨ p ∈ t := by
  induction t with
  | nil => simpa [treeInsert] using h
  | cons q rest ih =>
    cases q with
    | mk k' v' =>
      unfold treeInsert at h
      by_cases h1 : keyLt k k' = true
      · rw [if_pos h1] at h
        rcases List.mem_cons.mp h with h | h
        · exact Or.inl h
        · exact Or.inr h
      · rw [if_neg h1] at h
        by_cases h2 : k = k'
        · rw [if_pos h2] at h
          exact Or.inr h
        · rw [if_neg h2] at h
          rcases List.mem_cons.mp h with h | h
          · rw [h]
            exact Or.inr (List.mem_cons_self _ _)
          · rcases ih h with h' | h'
            · exact Or.inl h'
            · exact Or.inr (List.mem_cons_of_mem _ h')

theorem mem_treeInsert_of_mem {p : List String × Bool} (k : List String) (v : Bool)
    {t : DirTree} (h : p ∈ t) : p ∈ treeInsert k v t := by
  induction t with
  | nil => simp at h
  | cons q rest ih =>
    cases q with
    | mk k' v' =>
      unfold treeInsert
      by_cases h1 : keyLt k k' = true
      · rw [if_pos h1]
        exact List.mem_cons_of_mem _ h
      · rw [if_neg h1]
        by_cases h2 : k = k'
        · rw [if_pos h2]
          exact h
        · rw [if_neg h2]
          rcases List.mem_cons.mp h with h' | h'
          · rw [h']
            exact List.mem_cons_self _ _
          · exact List.mem_cons_of_mem _ (ih h')

theorem treeInsert_key_mem (k : List String) (v : Bool) (t : DirTree) :
    ∃ v', (k, v') ∈ treeInsert k v t := by
  induction t with
  | nil => exact ⟨v, by simp [treeInsert]⟩
  | cons q rest ih =>
    cases q with
    | mk k' v' =>
      unfold treeInsert
      by_cases h1 : keyLt k k' = true
      · rw [if_pos h1]
        exact ⟨v, List.mem_cons_self _ _⟩
      · rw [if_neg h1]
        by_cases h2 : k = k'
        · rw [if_pos h2]
          exact ⟨v', by rw [h2]; exact List.mem_cons_self _ _⟩
        · rw [if_neg h2]
          obtain ⟨v'', hv''⟩ := ih
          exact ⟨v'', List.mem_cons_of_mem _ hv''⟩

theorem treeInsert_sorted {t : DirTree} (k : List String) (v : Bool)
    (h : TreeSorted t) : TreeSorted (treeInsert k v t) := by
  induction t with
  | nil => simp [treeInsert, TreeSorted]
  | cons q rest ih =>
    cases q with
    | mk k' v' =>
      rw [TreeSorted, List.pairwise_cons] at h
      obtain ⟨hk', hrest⟩ := h
      unfold treeInsert
      by_cases h1 : keyLt k k' = true
      · rw [if_pos h1]
        rw [TreeSorted, List.pairwise_cons]
        refine ⟨?_, ?_⟩
        · intro b hb
          rcases List.mem_cons.mp hb with hb | hb
          · rw [hb]
            exact h1
          · exact keyLt_trans k k' b.1 h1 (hk' b hb)
        · rw [List.pairwise_cons]
          exact ⟨hk', hrest⟩
      · rw [if_neg h1]
        by_cases h2 : k = k'
        · rw [if_pos h2]
          rw [TreeSorted, List.pairwise_cons]
          exact ⟨hk', hrest⟩
        · rw [if_neg h2]
          rw [TreeSorted, List.pairwise_cons]
          refine ⟨?_, ih hrest⟩
          intro b hb
          rcases treeInsert_mem hb with hb' | hb'
          · rw [hb']
            exact keyLt_flip k k' (by simpa using h1) h2
          · exact hk' b hb'

theorem insertList_mem {ps : List (List String × Bool)} {t : DirTree}
    {p : List String × Bool} (h : p ∈ insertList ps t) :
    (∃ q ∈ ps, p.1 = q.1) ∨ p ∈ t := by
  induction ps generalizing t with
  | nil => exact Or.inr h
  | cons q qs ih =>
    rcases ih (t := treeInsert q.1 q.2 t) h with h' | h'
    · obtain ⟨r, hr, hpr⟩ := h'
      exact Or.inl ⟨r, List.mem_cons_of_mem _ hr, hpr⟩
    · rcases treeInsert_mem h' with h'' | h''
      · exact Or.inl ⟨q, List.mem_cons_self _ _, by rw [h'']⟩
      · exact Or.inr h''

theorem insertList_mem_pairs {ps : List (List String × Bool)} {t : DirTree}
    {p : List String × Bool} (h : p ∈ insertList ps t) :
    p ∈ ps ∨ p ∈ t := by
  induction ps generalizing t with
  | nil => exact Or.inr h
  | cons q qs ih =>
    rcases ih (t := treeInsert q.1 q.2 t) h with h' | h'
    · exact Or.inl (List.mem_cons_of_mem _ h')
    · rcases treeInsert_mem h' with h'' | h''
      · exact Or.inl (by rw [h'']; exact List.mem_cons_self _ _)
      · exact Or.inr h''

theorem mem_insertList_of_mem {p : List String × Bool}
    (ps : List (List String × Bool)) {t : DirTree} (h : p ∈ t) :
    p ∈ insertList ps t := by
  induction ps generalizing t with
  | nil => exact h
  | cons q qs ih => exact ih (mem_treeInsert_of_mem q.1 q.2 h)

theorem insertList_key_mem {k : List String}
    {ps : List (List String × Bool)} (hkv : ∃ v, (k, v) ∈ ps) (t : DirTree) :
    ∃ v', (k, v') ∈ insertList ps t := by
  induction ps generalizing t with
  | nil =>
    obtain ⟨v, hv⟩ := hkv
    simp at hv
  | cons q qs ih =>
    obtain ⟨v, hv⟩ := hkv
    rcases List.mem_cons.mp hv with h | h
    · cases h
      by_cases hqs : ∃ v2, (k, v2) ∈ qs
      · exact ih hqs _
      · obtain ⟨v', hv'⟩ := treeInsert_key_mem k v t
        exact ⟨v', mem_insertList_of_mem qs hv'⟩
    · exact ih ⟨v, h⟩ _

theorem insertList_sorted {ps : List (List String × Bool)} {t : DirTree}
    (h : TreeSorted t) : TreeSorted (insertList ps t) := by
  induction ps generalizing t with
  | nil => exact h
  | cons q qs ih => exact ih (treeInsert_sorted q.1 q.2 h)

/-! ### Invariants of the built tree -/

/-- Invariant of the ordered map built by `build_directory_structure`:
strictly sorted in key order; no key contains a `.git` component; a key
whose own name is `.gitignore` can only carry the directory flag (it can
only have been synthesized as an ancestor); keys are non-empty; and keys
are closed under non-empty ancestors. -/
def TreeInv (t : DirTree) : Prop :=
  TreeSorted t ∧
  (∀ p ∈ t, ".git" ∉ p.1) ∧
  (∀ p ∈ t, p.1.getLast? = some ".gitignore" → p.2 = true) ∧
  (∀ p ∈ t, p.1 ≠ []) ∧
  (∀ p ∈ t, ∀ j, 0 < j → j < p.1.length → ∃ v, (p.1.take j, v) ∈ t)

theorem entryKeys_mem {rel : List String} {d : Bool} {p : List String × Bool}
    (h : p ∈ entryKeys rel d) :
    ∃ j, j < rel.length ∧
      p = (rel.take (j + 1), if rel.take (j + 1) = rel then d else true) := by
  unfold entryKeys at h
  obtain ⟨j, hj, hp⟩ := List.mem_map.mp h
  exact ⟨j, List.mem_range.mp hj, hp.symm⟩

theorem entryKeys_key_mem (rel : List String) (d : Bool) {j : Nat}
    (hj : j < rel.length) :
    (rel.take (j + 1), if rel.take (j + 1) = rel then d else true) ∈ entryKeys rel d := by
  unfold entryKeys
  exact List.mem_map.mpr ⟨j, List.mem_range.mpr hj, rfl⟩

/-- What `entryKeep` guarantees about the relative path of a kept entry. -/
theorem entryKeep_rel {e : WalkEntry} (he : entryKeep e = true) (root : FsPath)
    (hrelne : e.path.drop root.length ≠ []) :
    ".git" ∉ e.path.drop root.length ∧
    (e.path.drop root.length).getLast? ≠ some ".gitignore" := by
  unfold entryKeep at he
  rw [Bool.and_eq_true] at he
  obtain ⟨h1, h2⟩ := he
  obtain ⟨n, hn, hgit, hgitig⟩ :
      ∃ n, e.path.getLast? = some n ∧ n ≠ ".git" ∧ n ≠ ".gitignore" := by
    cases hlast : e.path.getLast? with
    | none => rw [hlast] at h2; simp at h2
    | some n =>
      rw [hlast] at h2
      simp only [Option.map] at h2
      simp only [Option.getD_some, Bool.and_eq_true, bne_iff_ne, ne_eq] at h2
      exact ⟨n, rfl, h2.1, h2.2⟩
  have hpathne : e.path ≠ [] := by
    intro hcontra
    rw [hcontra] at hn
    simp at hn
  have hlastrel : (e.path.drop root.length).getLast? = e.path.getLast? := by
    conv_rhs => rw [← List.take_append_drop root.length e.path]
    rw [List.getLast?_append_of_ne_nil _ hrelne]
  have hnotmem : ".git" ∉ e.path := by
    intro hmem
    have hsplit := List.dropLast_concat_getLast hpathne
    rw [← hsplit] at hmem
    rcases List.mem_append.mp hmem with hmem' | hmem'
    · have hc : e.path.dropLast.contains ".git" = false := by simpa using h1
      have : e.path.dropLast.contains ".git" = true := by
        simpa [List.contains, List.elem_eq_mem] using hmem'
      rw [hc] at this
      simp at this
    · have : (".git" : String) = e.path.getLast hpathne := by simpa using hmem'
      apply hgit
      rw [List.getLast?_eq_getLast _ hpathne] at hn
      rw [← this] at hn
      simpa using hn.symm
  refine ⟨fun hmem => hnotmem (List.drop_subset _ _ hmem), ?_⟩
  rw [hlastrel, hn]
  intro hcontra
  exact hgitig (Option.some.inj hcontra)

theorem addEntry_treeInv {t : DirTree} (root : FsPath) (e : WalkEntry)
    (he : entryKeep e = true) (h : TreeInv t) : TreeInv (addEntry root t e) := by
  unfold addEntry
  by_cases hpre : root.isPrefixOf e.path
  · rw [if_pos hpre]
    by_cases hempty : (e.path.drop root.length).isEmpty
    · simp only [hempty, if_true]
      exact h
    · simp only [hempty, if_false, Bool.false_eq_true]
      have hrelne : e.path.drop root.length ≠ [] := by
        intro hcontra
        rw [hcontra] at hempty
        simp at hempty
      obtain ⟨hgit, hgitig⟩ := entryKeep_rel he root hrelne
      set rel := e.path.drop root.length with hrel
      set d := entryReportsDir e with hd
      obtain ⟨hsorted, hnogit, hign, hne, hclosed⟩ := h
      refine ⟨insertList_sorted hsorted, ?_, ?_, ?_, ?_⟩
      · intro p hp
        rcases insertList_mem_pairs hp with hp' | hp'
        · obtain ⟨j, hj, hpeq⟩ := entryKeys_mem hp'
          rw [hpeq]
          intro hmem
          exact hgit (List.take_subset _ _ hmem)
        · exact hnogit p hp'
      · intro p hp hlast
        rcases insertList_mem_pairs hp with hp' | hp'
        · obtain ⟨j, hj, hpeq⟩ := entryKeys_mem hp'
          by_cases hfull : rel.take (j + 1) = rel
          · exfalso
            rw [hpeq] at hlast
            simp only [hfull] at hlast
            exact hgitig hlast
          · rw [hpeq]
            simp [hfull]
        · exact hign p hp' hlast
      · intro p hp
        rcases insertList_mem_pairs hp with hp' | hp'
        · obtain ⟨j, hj, hpeq⟩ := entryKeys_mem hp'
          rw [hpeq]
          simp only [ne_eq, List.take_eq_nil_iff]
          push_neg
          exact ⟨Nat.succ_ne_zero j, hrelne⟩
        · exact hne p hp'
      · intro p hp j hj hjlen
        rcases insertList_mem_pairs hp with hp' | hp'
        · obtain ⟨j0, hj0, hpeq⟩ := entryKeys_mem hp'
          have hlen : p.1.length = j0 + 1 := by
            rw [hpeq]
            simp only [List.length_take]
            omega
          have hjle : j ≤ j0 := by omega
          have htake : p.1.take j = rel.take j := by
            rw [hpeq]
            simp only [List.take_take]
            congr 1
            omega
          rw [htake]
          have : j - 1 < rel.length := by omega
          have hkeymem := entryKeys_key_mem rel d (j := j - 1) this
          have hj1 : j - 1 + 1 = j := by omega
          rw [hj1] at hkeymem
          exact insertList_key_mem ⟨_, hkeymem⟩ t
        · obtain ⟨v, hv⟩ := hclosed p hp' j hj hjlen
          exact ⟨v, mem_insertList_of_mem _ hv⟩
  · rw [if_neg hpre]
    exact h

theorem foldl_addEntry_treeInv (root : FsPath) (es : List WalkEntry)
    (hes : ∀ e ∈ es, entryKeep e = true) {t : DirTree} (h : TreeInv t) :
    TreeInv (es.foldl (addEntry root) t) := by
  induction es generalizing t with
  | nil => exact h
  | cons e es ih =>
    exact ih (fun e' he' => hes e' (List.mem_cons_of_mem _ he'))
      (addEntry_treeInv root e (hes e (List.mem_cons_self _ _)) h)

theorem keptEntries_keep (fs : FS) (root : FsPath) :
    ∀ e ∈ keptEntries fs root, entryKeep e = true := by
  intro e he
  unfold keptEntries at he
  obtain ⟨r, _, hr⟩ := List.mem_filterMap.mp he
  cases r with
  | error e' => simp at hr
  | ok e' =>
    simp only [] at hr
    split at hr
    · cases hr
      assumption
    · simp at hr

theorem structureEntries_treeInv (fs : FS) (root : FsPath) :
    TreeInv (structureEntries fs root) := by
  unfold structureEntries
  refine foldl_addEntry_treeInv root _ (keptEntries_keep fs root) ?_
  refine ⟨List.Pairwise.nil, ?_, ?_, ?_, ?_⟩ <;> intro p hp <;> simp at hp

def gitRoot : FsPath := ["repo"]

/-- A filesystem holding a *directory* named `.gitignore` with a file
inside it. -/
def fsGitDir : FS where
  pathExists p := p == gitRoot
  walk p :=
    if p == gitRoot then
      [.ok ⟨gitRoot, some .dir⟩,
       .ok ⟨["repo", "x"], some .dir⟩,
       .ok ⟨["repo", "x", ".gitignore"], some .dir⟩,
       .ok ⟨["repo", "x", ".gitignore", "f.txt"], some .file⟩]
    else []
  canonicalize p := .ok p
  readToString _ := .error "n/a"

/-- C9 (counterexample): the rendered structure can contain a line naming
`.gitignore`.  A directory named `.gitignore` survives the entry filter
through its children — `"/.git/"` is not a substring of `"/.gitignore/"`
and the children's own names are unobjectionable — and ancestor
synthesis then renders a `.gitignore/` line. -/
theorem c9_directory_structure_counterexample :
    (["x", ".gitignore"], true) ∈ structureEntries fsGitDir gitRoot ∧
    (["x", ".gitignore"], true).1.getLast? = some ".gitignore" ∧
    build_directory_structure fsGitDir gitRoot =
      "└── x/\n  └── .gitignore/\n    └── f.txt\n" := by
  refine ⟨by decide, by decide, by decide⟩

/-- C9 (amended): the rendered entries never contain a `.git` component
(so no line names the version-control metadata directory); a line can
name `.gitignore` only as a synthesized ancestor *directory* (never a
walked entry's own name, which the filter removes); the entries are
strictly sorted in the lexicographic (component-wise) order of their full
relative paths; every non-empty ancestor of a listed entry is listed; a
line whose path is a proper ancestor of another's precedes it; and each
line is the branch glyph indented one two-space unit per path segment
below the root, with a trailing `/` on directories. -/
theorem c9_directory_structure_amended (fs : FS) (root : FsPath) :
    TreeSorted (structureEntries fs root) ∧
    (∀ p ∈ structureEntries fs root,
        ".git" ∉ p.1 ∧ ((p.1.getLast?).getD "") ≠ ".git") ∧
    (∀ p ∈ structureEntries fs root,
        p.1.getLast? = some ".gitignore" → p.2 = true) ∧
    (∀ p ∈ structureEntries fs root, ∀ j, 0 < j → j < p.1.length →
        ∃ v, (p.1.take j, v) ∈ structureEntries fs root) ∧
    (∀ (i j : Nat) (hi : i < (structureEntries fs root).length)
        (hj : j < (structureEntries fs root).length),
        ((structureEntries fs root).get ⟨i, hi⟩).1 ≠
          ((structureEntries fs root).get ⟨j, hj⟩).1 →
        ((structureEntries fs root).get ⟨i, hi⟩).1 <+:
          ((structureEntries fs root).get ⟨j, hj⟩).1 →
        i < j) ∧
    build_directory_structure fs root =
      String.join ((structureEntries fs root).map (fun p => renderLine p.1 p.2)) ∧
    (∀ (k : List String) (d : Bool), renderLine k d =
        String.join (List.replicate (k.length - 1) "  ") ++ "└── " ++
          ((k.getLast?).getD "") ++ (if d then "/\n" else "\n")) := by
  obtain ⟨hsorted, hnogit, hign, hne, hclosed⟩ := structureEntries_treeInv fs root
  refine ⟨hsorted, ?_, hign, hclosed, ?_, rfl, ?_⟩
  · intro p hp
    refine ⟨hnogit p hp, ?_⟩
    cases hlast : p.1.getLast? with
    | none =>
      rw [List.getLast?_eq_getLast _ (hne p hp)] at hlast
      simp at hlast
    | some x =>
      have hxmem : x ∈ p.1 := by
        rw [List.getLast?_eq_getLast _ (hne p hp)] at hlast
        rw [← Option.some.inj hlast]
        exact List.getLast_mem (hne p hp)
      simp only [Option.getD_some]
      intro hcontra
      rw [hcontra] at hxmem
      exact hnogit p hp hxmem
  · intro i j hi hj hneq hpre
    rcases Nat.lt_trichotomy i j with h | h | h
    · exact h
    · exfalso
      apply hneq
      subst h
      rfl
    · exfalso
      have hji := (List.pairwise_iff_get.mp hsorted) ⟨j, hj⟩ ⟨i, hi⟩ h
      have hij := keyLt_of_ne_isPrefixOf _ _ hneq hpre
      rw [keyLt_asymm _ _ hij] at hji
      simp at hji
  · intro k d
    unfold renderLine
    cases d <;> simp

theorem c9_directory_structure_amended_witness :
    (∃ v, ((["x", ".gitignore", "f.txt"] : List String).take 1, v) ∈
      structureEntries fsGitDir gitRoot) ∧
    ((["x", ".gitignore"], true) : List String × Bool).2 = true ∧
    ".git" ∉ (["x", ".gitignore", "f.txt"] : List String) :=
  ⟨(c9_directory_structure_amended fsGitDir gitRoot).2.2.2.1
      (["x", ".gitignore", "f.txt"], false) (by decide) 1 (by decide) (by decide),
   (c9_directory_structure_amended fsGitDir gitRoot).2.2.1
      (["x", ".gitignore"], true) (by decide) (by decide),
   ((c9_directory_structure_amended fsGitDir gitRoot).2.1
      (["x", ".gitignore", "f.txt"], false) (by decide)).1⟩

end Cfl
